import Mathlib

/-!
Shallow embedding of `src/heapstack.h` (class `HeapStack`), a bump-pointer
arena allocator: a singly linked chain of fixed-size blocks, each block
serving sequential allocations by bumping an `endOffset` within its data
region, with aggregate counters `blocks` and `bytes`, and a `flatten`
operation concatenating the used bytes of every block.

Modelling choices, each forced by the source:
* `int64_t` is modelled as `Int` (signed, and every value reachable in the
  claims stays far below `2 ^ 63`, so wraparound never occurs there).
* A `block_s` is a structure `Block` holding its `endOffset` and its data
  region as a `List UInt8` of length `dataSize` (the `char data[1]` fake
  array overlays exactly `blockSize - headerSize` usable bytes of the
  `new char[blockSize]` buffer).  Fresh blocks get zero-filled data: the
  C++ bytes are indeterminate, and no claim depends on their values.
* `headerSize = sizeof(block_s) - 1 = 16` on the usual LP64 layout with
  `#pragma pack(1)`: an 8-byte `nextBlock` pointer plus an 8-byte
  `int64_t endOffset` (the 1-byte fake `data` array is subtracted).
* The linked list with `head` and `tail` pointers is the list `chainR`
  stored TAIL FIRST: `chainR.head?` is the source's `tail` pointer and
  `chainR.reverse` is the head-to-tail walk used by `flatten`.  This gives
  the same O(1) tail access the source gets from its `tail` pointer.
* A returned `char*` is a `Range`: the head-to-tail index of the block it
  points into, the byte offset inside that block's data region where the
  pointer points, and the requested size.
* The source's member functions mutate nothing except in `newPtr` and
  `newBlock`; the query members are embedded as state-passing functions
  returning the (unchanged) receiver so that their frame effect is a
  stated theorem rather than a convention.
-/

namespace HeapStackV

/-- One `block_s` of `heapstack.h`: the `nextBlock` pointer is represented by
the position in the arena's chain list, `endOffset` is the bump offset, and
`data` is the block's usable data region (`dataSize` bytes). -/
structure Block where
  endOffset : Int
  data : List UInt8
deriving Repr, DecidableEq

/-- A `char*` returned by `newPtr`, identified by the head-to-tail index of
the block it points into, the offset of the pointer inside that block's data
region, and the size that was requested (the extent of the handed-out range:
the bytes `[off, off + size)` of block `blockIdx`). -/
structure Range where
  blockIdx : Nat
  off : Int
  size : Int
deriving Repr, DecidableEq

/-- The `HeapStack` object: `blockSize`, `dataSize`, the counters `blocks`
and `bytes`, and the block chain (tail first; `[]` when `head == tail == NULL`). -/
structure HeapStack where
  blockSize : Int
  dataSize : Int
  blocks : Int
  bytes : Int
  chainR : List Block
deriving Repr, DecidableEq

/-- `sizeof(block_s) - 1` with `#pragma pack(1)` on LP64: 8 (pointer) + 8
(`int64_t`) + 1 (fake `data[1]`) - 1. -/
def headerSize : Int := 16

/-- The constructor `HeapStack(int64_t blocks4k = 1024)`: it only initialises
the fields (`blockSize = blocks4k * 4096`, `dataSize = blockSize - headerSize`,
zero counters, `NULL` head and tail) and has no failure path whatsoever. -/
def HeapStack.init (blocks4k : Int) : HeapStack :=
  { blockSize := blocks4k * 4096
    dataSize := blocks4k * 4096 - headerSize
    blocks := 0
    bytes := 0
    chainR := [] }

/-- `newBlock()`: allocate a fresh block (`endOffset = 0`, indeterminate data
modelled as zero-filled), increment `blocks`, link it after the old tail and
make it the new tail (cons onto the tail-first chain). -/
def HeapStack.newBlock (s : HeapStack) : HeapStack :=
  { s with
    blocks := s.blocks + 1
    chainR := { endOffset := 0, data := List.replicate s.dataSize.toNat 0 } :: s.chainR }

/-- `newPtr(int64_t size)`: if there is no tail or
`tail->endOffset + size >= dataSize`, call `newBlock()`; then return
`tail->data + tail->endOffset`, add `size` to `tail->endOffset` and to
`bytes`.  The `[]` fallback of the second match is unreachable (after the
first step the chain always has a tail); it returns the state unchanged.
Note the source checks nothing else: there is no error path. -/
def HeapStack.newPtr (s : HeapStack) (size : Int) : HeapStack × Range :=
  let s1 := match s.chainR with
    | [] => s.newBlock
    | b :: _ => if b.endOffset + size ≥ s.dataSize then s.newBlock else s
  match s1.chainR with
  | [] => (s1, { blockIdx := 0, off := 0, size := size })
  | b :: rest =>
    ({ s1 with
        bytes := s1.bytes + size
        chainR := { endOffset := b.endOffset + size, data := b.data } :: rest },
     { blockIdx := rest.length, off := b.endOffset, size := size })

/-- Outcome of `currentData()`.  `ptr i off` is a pointer to offset `off` of
block `i`'s data region; `nullTailUB` models the unguarded `tail->data`
access when `tail == NULL` — a null-pointer dereference (undefined
behaviour), not any signalled error: the source has no error path here. -/
inductive CurrentDataResult where
  | ptr : Nat → Int → CurrentDataResult
  | nullTailUB : CurrentDataResult
deriving Repr, DecidableEq

/-- `currentData()`: `return tail->data;` with no guard. -/
def HeapStack.currentData (s : HeapStack) : CurrentDataResult :=
  match s.chainR with
  | [] => CurrentDataResult.nullTailUB
  | _ :: rest => CurrentDataResult.ptr rest.length 0

/-- `getBytes()`: returns the `bytes` counter; mutates nothing. -/
def HeapStack.getBytes (s : HeapStack) : Int × HeapStack := (s.bytes, s)

/-- `getAllocated()`: returns `blocks * blockSize`; mutates nothing. -/
def HeapStack.getAllocated (s : HeapStack) : Int × HeapStack :=
  (s.blocks * s.blockSize, s)

/-- `getBlocks()`: returns the `blocks` counter; mutates nothing. -/
def HeapStack.getBlocks (s : HeapStack) : Int × HeapStack := (s.blocks, s)

/-- The `while (block)` loop of `flatten()`: walk head to tail, appending
each block's first `endOffset` data bytes to the write cursor. -/
def flattenLoop : List Block → List UInt8 → List UInt8
  | [], buff => buff
  | b :: more, buff => flattenLoop more (buff ++ b.data.take b.endOffset.toNat)

/-- `flatten()`: allocate a `bytes`-long buffer and copy each block's used
bytes into it walking the chain from head (`chainR.reverse`) to tail.  The
model returns the byte sequence actually written; mutates nothing. -/
def HeapStack.flatten (s : HeapStack) : List UInt8 × HeapStack :=
  (flattenLoop s.chainR.reverse [], s)

/-- `flatten(int64_t &length)`: sets `length = bytes` and calls `flatten()`;
mutates nothing of the arena. -/
def HeapStack.flattenLen (s : HeapStack) : (List UInt8 × Int) × HeapStack :=
  (((s.flatten).1, s.bytes), s)

/-- Run a sequence of `newPtr` calls, threading the arena state. -/
def run (s : HeapStack) : List Int → HeapStack
  | [] => s
  | sz :: rest => run (s.newPtr sz).1 rest

/-- Run a sequence of `newPtr` calls, collecting the returned ranges in call
order. -/
def runRanges (s : HeapStack) : List Int → List Range
  | [] => []
  | sz :: rest => (s.newPtr sz).2 :: runRanges (s.newPtr sz).1 rest

/-- Two returned ranges overlap when they name a common byte: same block and
a position covered by both `[off, off + size)` intervals. -/
def Range.overlaps (r1 r2 : Range) : Prop :=
  r1.blockIdx = r2.blockIdx ∧
  max r1.off r2.off < min (r1.off + r1.size) (r2.off + r2.size)

instance (r1 r2 : Range) : Decidable (r1.overlaps r2) := by
  unfold Range.overlaps; infer_instance

/-- A range lies inside the data region (of extent `d`) of the single block
it names. -/
def Range.inRegion (r : Range) (d : Int) : Prop :=
  0 ≤ r.off ∧ r.off + r.size ≤ d

instance (r : Range) (d : Int) : Decidable (r.inRegion d) := by
  unfold Range.inRegion; infer_instance

/-- The allocation frontier: head-to-tail index of the tail block and its
`endOffset` (`(0, 0)` for the empty chain). -/
def frontier (s : HeapStack) : Nat × Int :=
  match s.chainR with
  | [] => (0, 0)
  | b :: rest => (rest.length, b.endOffset)

/-- Order on (block index, offset) positions: strictly earlier block, or the
same block at an offset not later. -/
def posLE (p q : Nat × Int) : Prop :=
  p.1 < q.1 ∨ (p.1 = q.1 ∧ p.2 ≤ q.2)

/-- Counter coherence: `blocks` counts the chain's blocks and `bytes` sums
their `endOffset`s.  This holds in every reachable state, with no
assumption at all on the requested sizes. -/
def Counters (s : HeapStack) : Prop :=
  s.blocks = (s.chainR.length : Int) ∧
  s.bytes = (s.chainR.map Block.endOffset).sum

/-- Well-formed arena: positive usable capacity not exceeding the raw block
size, coherent counters, and every block's `endOffset` within `[0, dataSize]`
with a data region of exactly `dataSize` bytes. -/
def WF (s : HeapStack) : Prop :=
  0 < s.dataSize ∧ s.dataSize ≤ s.blockSize ∧ Counters s ∧
  ∀ b ∈ s.chainR, 0 ≤ b.endOffset ∧ b.endOffset ≤ s.dataSize ∧
    b.data.length = s.dataSize.toNat

instance (s : HeapStack) : Decidable (Counters s) := by
  unfold Counters; infer_instance

instance (s : HeapStack) : Decidable (WF s) := by
  unfold WF; infer_instance

/-- A small concrete arena (two blocks of 4 usable bytes, the head block
holding 2 used bytes and the tail 1) used to instantiate theorems with
hypotheses. -/
def smallArena : HeapStack :=
  { blockSize := 20
    dataSize := 4
    blocks := 2
    bytes := 3
    chainR := [{ endOffset := 1, data := [5, 6, 7, 8] },
               { endOffset := 2, data := [1, 2, 3, 4] }] }

/-- A concrete arena whose single (tail) block has exactly 2 of its 4 usable
bytes free, used to instantiate the exact-fill scenario. -/
def fullTailArena : HeapStack :=
  { blockSize := 20
    dataSize := 4
    blocks := 1
    bytes := 2
    chainR := [{ endOffset := 2, data := [9, 9, 9, 9] }] }

/-! ### Scenario lemmas for `newPtr`: the three branches of the source. -/

/-- `newPtr` on an empty arena (`tail == NULL`): one fresh block is created
and the range starts at its data start. -/
theorem newPtr_nil (s : HeapStack) (sz : Int) (hc : s.chainR = []) :
    s.newPtr sz =
      ({ s with
          blocks := s.blocks + 1
          bytes := s.bytes + sz
          chainR := [{ endOffset := sz, data := List.replicate s.dataSize.toNat 0 }] },
       { blockIdx := 0, off := 0, size := sz }) := by
  simp [HeapStack.newPtr, HeapStack.newBlock, hc]

/-- `newPtr` when the capacity check `tail->endOffset + size >= dataSize`
does NOT fire: the tail block is bumped in place. -/
theorem newPtr_fits (s : HeapStack) (sz : Int) (b : Block) (rest : List Block)
    (hc : s.chainR = b :: rest) (hlt : b.endOffset + sz < s.dataSize) :
    s.newPtr sz =
      ({ s with
          bytes := s.bytes + sz
          chainR := { endOffset := b.endOffset + sz, data := b.data } :: rest },
       { blockIdx := rest.length, off := b.endOffset, size := sz }) := by
  simp [HeapStack.newPtr, hc, not_le.2 hlt]

/-- `newPtr` when the capacity check fires on an existing tail: a fresh block
is appended and the range is served from its start. -/
theorem newPtr_full (s : HeapStack) (sz : Int) (b : Block) (rest : List Block)
    (hc : s.chainR = b :: rest) (hge : b.endOffset + sz ≥ s.dataSize) :
    s.newPtr sz =
      ({ s with
          blocks := s.blocks + 1
          bytes := s.bytes + sz
          chainR := { endOffset := sz, data := List.replicate s.dataSize.toNat 0 }
            :: b :: rest },
       { blockIdx := rest.length + 1, off := 0, size := sz }) := by
  simp [HeapStack.newPtr, HeapStack.newBlock, hc, hge]

/-- `newPtr` never changes the configuration fields. -/
theorem newPtr_config (s : HeapStack) (sz : Int) :
    (s.newPtr sz).1.dataSize = s.dataSize ∧
    (s.newPtr sz).1.blockSize = s.blockSize := by
  rcases hc : s.chainR with _ | ⟨b, rest⟩
  · rw [newPtr_nil s sz hc]; exact ⟨rfl, rfl⟩
  · rcases lt_or_ge (b.endOffset + sz) s.dataSize with hlt | hge
    · rw [newPtr_fits s sz b rest hc hlt]; exact ⟨rfl, rfl⟩
    · rw [newPtr_full s sz b rest hc hge]; exact ⟨rfl, rfl⟩

/-- After any `newPtr` call the chain is non-empty (a tail exists). -/
theorem newPtr_ne_nil (s : HeapStack) (sz : Int) :
    (s.newPtr sz).1.chainR ≠ [] := by
  rcases hc : s.chainR with _ | ⟨b, rest⟩
  · rw [newPtr_nil s sz hc]; simp
  · rcases lt_or_ge (b.endOffset + sz) s.dataSize with hlt | hge
    · rw [newPtr_fits s sz b rest hc hlt]; simp
    · rw [newPtr_full s sz b rest hc hge]; simp

/-! ### Preservation of the counter and well-formedness invariants. -/

/-- A single `newPtr` call keeps the counters coherent, for ANY requested
size (the source adds `size` both to `tail->endOffset` and to `bytes`, and
`newBlock` pairs `blocks++` with the new link). -/
theorem counters_newPtr (s : HeapStack) (sz : Int) (h : Counters s) :
    Counters (s.newPtr sz).1 := by
  obtain ⟨hb, hs⟩ := h
  rcases hc : s.chainR with _ | ⟨b, rest⟩ <;>
    [skip; rcases lt_or_ge (b.endOffset + sz) s.dataSize with hlt | hge]
  · rw [newPtr_nil s sz hc]
    refine ⟨?_, ?_⟩ <;> simp [hb, hs, hc]
  · rw [newPtr_fits s sz b rest hc hlt]
    refine ⟨?_, ?_⟩ <;> simp [hb, hs, hc]
    ring
  · rw [newPtr_full s sz b rest hc hge]
    refine ⟨?_, ?_⟩ <;> simp [hb, hs, hc]
    ring

theorem counters_run (s : HeapStack) (l : List Int) (h : Counters s) :
    Counters (run s l) := by
  induction l generalizing s with
  | nil => exact h
  | cons sz rest ih => exact ih (s.newPtr sz).1 (counters_newPtr s sz h)

/-- The freshly constructed arena has coherent counters. -/
theorem counters_init (blocks4k : Int) : Counters (HeapStack.init blocks4k) := by
  refine ⟨?_, ?_⟩ <;> simp [Counters, HeapStack.init]

/-- A `newPtr` call whose size is within the allocation contract
(`0 ≤ size ≤ dataSize`) preserves well-formedness. -/
theorem wf_newPtr (s : HeapStack) (sz : Int) (h : WF s) (h0 : 0 ≤ sz)
    (hle : sz ≤ s.dataSize) : WF (s.newPtr sz).1 := by
  obtain ⟨hd, hdb, hcnt, hblk⟩ := h
  refine ⟨?_, ?_, counters_newPtr s sz hcnt, ?_⟩
  · rw [(newPtr_config s sz).1]; exact hd
  · rw [(newPtr_config s sz).1, (newPtr_config s sz).2]; exact hdb
  rcases hc : s.chainR with _ | ⟨b, rest⟩ <;>
    [skip; rcases lt_or_ge (b.endOffset + sz) s.dataSize with hlt | hge]
  · rw [newPtr_nil s sz hc]
    intro x hx
    simp only [List.mem_singleton] at hx
    subst hx
    exact ⟨h0, hle, by simp⟩
  · rw [newPtr_fits s sz b rest hc hlt]
    intro x hx
    simp only [List.mem_cons] at hx
    rcases hx with hx | hx
    · subst hx
      have hb := hblk b (by rw [hc]; exact List.mem_cons_self b rest)
      refine ⟨?_, ?_, ?_⟩
      · show (0 : Int) ≤ b.endOffset + sz
        linarith [hb.1]
      · show b.endOffset + sz ≤ s.dataSize
        exact le_of_lt hlt
      · show b.data.length = s.dataSize.toNat
        exact hb.2.2
    · exact hblk x (by rw [hc]; exact List.mem_cons_of_mem b hx)
  · rw [newPtr_full s sz b rest hc hge]
    intro x hx
    simp only [List.mem_cons] at hx
    rcases hx with hx | hx | hx
    · subst hx
      exact ⟨h0, hle, by simp⟩
    · subst hx
      exact hblk x (by rw [hc]; exact List.mem_cons_self x rest)
    · exact hblk x (by rw [hc]; exact List.mem_cons_of_mem b hx)

theorem wf_run (s : HeapStack) (l : List Int) (h : WF s)
    (hl : ∀ sz ∈ l, 0 ≤ sz ∧ sz ≤ s.dataSize) : WF (run s l) := by
  induction l generalizing s with
  | nil => exact h
  | cons sz rest ih =>
    have hhd := hl sz (List.mem_cons_self sz rest)
    refine ih (s.newPtr sz).1 (wf_newPtr s sz h hhd.1 hhd.2) ?_
    intro sz2 h2
    rw [(newPtr_config s sz).1]
    exact hl sz2 (List.mem_cons_of_mem sz h2)

/-- A fresh arena with at least one 4k unit per block is well-formed. -/
theorem wf_init (blocks4k : Int) (hb : 1 ≤ blocks4k) :
    WF (HeapStack.init blocks4k) := by
  have h4 : (4096 : Int) ≤ blocks4k * 4096 := by nlinarith
  refine ⟨?_, ?_, counters_init blocks4k, ?_⟩
  · show (0 : Int) < blocks4k * 4096 - headerSize
    simp only [headerSize]; linarith
  · show blocks4k * 4096 - headerSize ≤ blocks4k * 4096
    simp only [headerSize]; linarith
  · intro b hb2
    simp [HeapStack.init] at hb2

/-- `run` never changes the configuration fields. -/
theorem run_config (s : HeapStack) (l : List Int) :
    (run s l).dataSize = s.dataSize ∧ (run s l).blockSize = s.blockSize := by
  induction l generalizing s with
  | nil => exact ⟨rfl, rfl⟩
  | cons sz rest ih =>
    have hr := ih (s.newPtr sz).1
    have hc := newPtr_config s sz
    exact ⟨hr.1.trans hc.1, hr.2.trans hc.2⟩

/-- The chain only ever grows. -/
theorem run_chain_mono (s : HeapStack) (l : List Int) :
    s.chainR.length ≤ (run s l).chainR.length := by
  induction l generalizing s with
  | nil => exact le_refl _
  | cons sz rest ih =>
    refine le_trans ?_ (ih (s.newPtr sz).1)
    rcases hc : s.chainR with _ | ⟨b, rest2⟩ <;>
      [skip; rcases lt_or_ge (b.endOffset + sz) s.dataSize with hlt | hge]
    · rw [newPtr_nil s sz hc]
      simp [hc]
    · rw [newPtr_fits s sz b rest2 hc hlt]
      simp [hc]
    · rw [newPtr_full s sz b rest2 hc hge]
      simp [hc]

theorem run_ne_nil (s : HeapStack) (l : List Int) (h : s.chainR ≠ []) :
    (run s l).chainR ≠ [] := by
  induction l generalizing s with
  | nil => exact h
  | cons sz rest ih => exact ih (s.newPtr sz).1 (newPtr_ne_nil s sz)

/-! ### The allocation frontier and the geometry of returned ranges. -/

theorem posLE_trans (p q r : Nat × Int) (h1 : posLE p q) (h2 : posLE q r) :
    posLE p r := by
  rcases h1 with h1 | ⟨h1, h1b⟩ <;> rcases h2 with h2 | ⟨h2, h2b⟩
  · exact Or.inl (h1.trans h2)
  · exact Or.inl (h2 ▸ h1)
  · exact Or.inl (h1 ▸ h2)
  · exact Or.inr ⟨h1.trans h2, h1b.trans h2b⟩

/-- Geometry of one `newPtr` call under the allocation contract: the range
starts at or after the old frontier, the new frontier sits exactly at the
range's end, the range lies inside its block's data region, and the block it
names exists in the new chain. -/
theorem newPtr_geom (s : HeapStack) (sz : Int) (h : WF s) (_h0 : 0 ≤ sz)
    (hle : sz ≤ s.dataSize) :
    posLE (frontier s) ((s.newPtr sz).2.blockIdx, (s.newPtr sz).2.off) ∧
    frontier (s.newPtr sz).1 =
      ((s.newPtr sz).2.blockIdx, (s.newPtr sz).2.off + (s.newPtr sz).2.size) ∧
    ((s.newPtr sz).2).inRegion s.dataSize ∧
    (s.newPtr sz).2.blockIdx < (s.newPtr sz).1.chainR.length ∧
    (s.newPtr sz).2.size = sz := by
  obtain ⟨hd, _, _, hblk⟩ := h
  rcases hc : s.chainR with _ | ⟨b, rest⟩ <;>
    [skip; rcases lt_or_ge (b.endOffset + sz) s.dataSize with hlt | hge]
  · rw [newPtr_nil s sz hc]
    refine ⟨Or.inr ⟨?_, ?_⟩, ?_, ⟨le_refl 0, by simpa using hle⟩, by simp, rfl⟩
    · simp [frontier, hc]
    · simp [frontier, hc]
    · simp [frontier]
  · have hb := hblk b (by rw [hc]; exact List.mem_cons_self b rest)
    rw [newPtr_fits s sz b rest hc hlt]
    refine ⟨Or.inr ⟨?_, ?_⟩, ?_, ⟨hb.1, le_of_lt hlt⟩, by simp, rfl⟩
    · simp [frontier, hc]
    · simp [frontier, hc]
    · simp [frontier]
  · rw [newPtr_full s sz b rest hc hge]
    refine ⟨Or.inl ?_, ?_, ⟨le_refl 0, by simpa using hle⟩, by simp, rfl⟩
    · simp [frontier, hc]
    · simp [frontier]

/-- Every range handed out by a contract-abiding call sequence starts at or
after the arena's current frontier. -/
theorem runRanges_after_frontier (s : HeapStack) (l : List Int) (h : WF s)
    (hl : ∀ sz ∈ l, 0 ≤ sz ∧ sz ≤ s.dataSize) :
    ∀ r ∈ runRanges s l, posLE (frontier s) (r.blockIdx, r.off) := by
  induction l generalizing s with
  | nil => intro r hr; simp [runRanges] at hr
  | cons sz rest ih =>
    have hhd := hl sz (List.mem_cons_self sz rest)
    have hg := newPtr_geom s sz h hhd.1 hhd.2
    intro r hr
    simp only [runRanges, List.mem_cons] at hr
    rcases hr with hr | hr
    · subst hr; exact hg.1
    · have hstep : posLE (frontier s) (frontier (s.newPtr sz).1) := by
        refine posLE_trans _ _ _ hg.1 ?_
        rw [hg.2.1]
        refine Or.inr ⟨rfl, ?_⟩
        show (s.newPtr sz).2.off ≤ (s.newPtr sz).2.off + (s.newPtr sz).2.size
        rw [hg.2.2.2.2]
        linarith [hhd.1]
      refine posLE_trans _ _ _ hstep ?_
      refine ih (s.newPtr sz).1 (wf_newPtr s sz h hhd.1 hhd.2) ?_ r hr
      intro sz2 h2
      rw [(newPtr_config s sz).1]
      exact hl sz2 (List.mem_cons_of_mem sz h2)

/-- All ranges handed out by a contract-abiding call sequence: each lies in
its block's data region, each names a block of the final chain, each records
its requested size, and in call order they are position-ordered (each range
ends at or before the next begins). -/
theorem runRanges_geom (s : HeapStack) (l : List Int) (h : WF s)
    (hl : ∀ sz ∈ l, 0 ≤ sz ∧ sz ≤ s.dataSize) :
    (∀ r ∈ runRanges s l, r.inRegion s.dataSize ∧
      r.blockIdx < (run s l).chainR.length) ∧
    (runRanges s l).map Range.size = l ∧
    List.Pairwise (fun r1 r2 => posLE (r1.blockIdx, r1.off + r1.size)
      (r2.blockIdx, r2.off)) (runRanges s l) := by
  induction l generalizing s with
  | nil => exact ⟨by intro r hr; simp [runRanges] at hr, by simp [runRanges], by
      simp [runRanges]⟩
  | cons sz rest ih =>
    have hhd := hl sz (List.mem_cons_self sz rest)
    have hg := newPtr_geom s sz h hhd.1 hhd.2
    have hwf2 := wf_newPtr s sz h hhd.1 hhd.2
    have hl2 : ∀ sz2 ∈ rest, 0 ≤ sz2 ∧ sz2 ≤ (s.newPtr sz).1.dataSize := by
      intro sz2 h2
      rw [(newPtr_config s sz).1]
      exact hl sz2 (List.mem_cons_of_mem sz h2)
    have hih := ih (s.newPtr sz).1 hwf2 hl2
    refine ⟨?_, ?_, ?_⟩
    · intro r hr
      simp only [runRanges, List.mem_cons] at hr
      rcases hr with hr | hr
      · subst hr
        refine ⟨hg.2.2.1, lt_of_lt_of_le hg.2.2.2.1 ?_⟩
        exact run_chain_mono (s.newPtr sz).1 rest
      · have := (hih.1 r hr)
        rw [(newPtr_config s sz).1] at this
        exact this
    · simp only [runRanges, List.map_cons, hih.2.1, hg.2.2.2.2]
    · simp only [runRanges]
      refine List.Pairwise.cons ?_ hih.2.2
      intro r hr
      have := runRanges_after_frontier (s.newPtr sz).1 rest hwf2 hl2 r hr
      rw [hg.2.1] at this
      exact this

/-! ### Flatten: the copy loop as a concatenation, and its length. -/

/-- The `flatten` copy loop appends, block by block, each block's used bytes
after the bytes already written. -/
theorem flattenLoop_eq (l : List Block) (buff : List UInt8) :
    flattenLoop l buff =
      buff ++ (l.map (fun b => b.data.take b.endOffset.toNat)).flatten := by
  induction l generalizing buff with
  | nil => simp [flattenLoop]
  | cons b more ih => simp [flattenLoop, ih]

/-- Length of the concatenated used bytes: with every block's `endOffset` in
`[0, d]` and a `d`-byte data region, it is the sum of the `endOffset`s. -/
theorem join_used_length (d : Int) (l : List Block)
    (h : ∀ b ∈ l, 0 ≤ b.endOffset ∧ b.endOffset ≤ d ∧
      b.data.length = d.toNat) :
    ((((l.map (fun b => b.data.take b.endOffset.toNat)).flatten).length : Int)) =
      (l.map Block.endOffset).sum := by
  induction l with
  | nil => simp
  | cons b more ih =>
    have hb := h b (List.mem_cons_self b more)
    have hlen : (b.data.take b.endOffset.toNat).length = b.endOffset.toNat := by
      rw [List.length_take, hb.2.2]
      exact min_eq_left (Int.toNat_le_toNat hb.2.1)
    have hmore := ih (fun x hx => h x (List.mem_cons_of_mem b hx))
    simp only [List.map_cons, List.flatten_cons, List.length_append, List.sum_cons]
    push_cast
    rw [hlen, hmore, Int.toNat_of_nonneg hb.1]

/-- A list of integers each at most `d` sums to at most `length * d`. -/
theorem sum_le_len_mul (d : Int) (l : List Int) (h : ∀ x ∈ l, x ≤ d) :
    l.sum ≤ (l.length : Int) * d := by
  induction l with
  | nil => simp
  | cons x xs ih =>
    have hx := h x (List.mem_cons_self x xs)
    have hxs := ih (fun y hy => h y (List.mem_cons_of_mem x hy))
    simp only [List.sum_cons, List.length_cons]
    push_cast
    nlinarith

/-- A `newPtr 0` call on an arena whose tail has `endOffset` 0 and positive
capacity leaves the arena unchanged. -/
theorem newPtr_zero_fix (s : HeapStack) (dd : List UInt8) (rest : List Block)
    (hc : s.chainR = { endOffset := 0, data := dd } :: rest)
    (hd : 0 < s.dataSize) :
    (s.newPtr 0).1 = s := by
  have hlt : ({ endOffset := 0, data := dd } : Block).endOffset + 0 <
      s.dataSize := by simpa using hd
  rw [newPtr_fits s 0 _ rest hc hlt]
  show ({ s with
      bytes := s.bytes + 0
      chainR := { endOffset := (0 : Int) + 0, data := dd } :: rest }
    : HeapStack) = s
  rw [add_zero, add_zero, ← hc]

theorem run_zero_fix (s : HeapStack) (dd : List UInt8) (rest : List Block)
    (k : Nat) (hc : s.chainR = { endOffset := 0, data := dd } :: rest)
    (hd : 0 < s.dataSize) :
    run s (List.replicate k 0) = s := by
  induction k with
  | zero => rfl
  | succ m ih =>
    show run (s.newPtr 0).1 (List.replicate m 0) = s
    rw [newPtr_zero_fix s dd rest hc hd]
    exact ih

/-! ### The claims. -/

/-- Claim C1 (code bug): the claim requires an `allocate` whose size exceeds
`dataSize` to signal an unsupported-allocation error and not to return a
range past the block's data region.  The source does neither: at the concrete
input — a fresh `HeapStack(1)` (`dataSize = 4080`) asked for 4081 bytes — the
single `if` allocates exactly one new block (no unbounded loop, contrary to
the spec's description of the defect) and then hands out the range
`[0, 4081)` of that block with no error, leaving the block over-full
(`endOffset = 4081 > dataSize`): the arena state is corrupted and the range
escapes the data region. -/
theorem C1_oversized_uncaught :
    (HeapStack.init 1).dataSize = 4080 ∧
    ((HeapStack.init 1).newPtr 4081).2 =
      { blockIdx := 0, off := 0, size := 4081 } ∧
    ((HeapStack.init 1).newPtr 4081).1.blocks = 1 ∧
    ((HeapStack.init 1).newPtr 4081).1.chainR.map Block.endOffset = [4081] ∧
    ¬ (((HeapStack.init 1).newPtr 4081).2).inRegion
        (HeapStack.init 1).dataSize := by
  decide

/-- Claim C2: on an arena whose tail exists and has remaining capacity
exactly equal to the requested size (`tail->endOffset + size = dataSize`),
the check `tail->endOffset + size >= dataSize` fires, so a new block is
appended (old tail untouched) and the returned range starts at offset 0 of
that new block, instead of exactly filling the old tail. -/
theorem C2_exact_fill (s : HeapStack) (b : Block) (rest : List Block)
    (size : Int) (hc : s.chainR = b :: rest)
    (hfit : b.endOffset + size = s.dataSize) :
    (s.newPtr size).1.blocks = s.blocks + 1 ∧
    (s.newPtr size).1.chainR =
      { endOffset := size, data := List.replicate s.dataSize.toNat 0 }
        :: b :: rest ∧
    (s.newPtr size).2 = { blockIdx := rest.length + 1, off := 0, size := size } := by
  rw [newPtr_full s size b rest hc (ge_of_eq hfit)]
  exact ⟨rfl, rfl, rfl⟩

/-- Witness for C2 at a concrete arena: one block, 2 of 4 usable bytes used,
request of exactly 2. -/
theorem C2_exact_fill_witness :
    fullTailArena.chainR = [{ endOffset := 2, data := [9, 9, 9, 9] }] ∧
    ({ endOffset := 2, data := [9, 9, 9, 9] } : Block).endOffset + 2 =
      fullTailArena.dataSize ∧
    ((fullTailArena.newPtr 2).1.blocks = fullTailArena.blocks + 1 ∧
      (fullTailArena.newPtr 2).1.chainR =
        { endOffset := 2, data := List.replicate fullTailArena.dataSize.toNat 0 }
          :: { endOffset := 2, data := [9, 9, 9, 9] } :: [] ∧
      (fullTailArena.newPtr 2).2 = { blockIdx := 1, off := 0, size := 2 }) :=
  ⟨rfl, by decide,
    C2_exact_fill fullTailArena { endOffset := 2, data := [9, 9, 9, 9] } [] 2
      rfl (by decide)⟩

/-- Claim C3: on a well-formed arena, `flatten` writes exactly the
concatenation, walking the chain from head to tail (`chainR.reverse`), of
each block's first `endOffset` data bytes, and the number of bytes written
equals `getBytes()` — the length of the buffer `flatten` allocates — with no
gap, padding or truncation. -/
theorem C3_flatten (s : HeapStack) (h : WF s) :
    (s.flatten).1 =
      (s.chainR.reverse.map (fun b => b.data.take b.endOffset.toNat)).flatten ∧
    (((s.flatten).1.length : Int)) = (s.getBytes).1 := by
  obtain ⟨hd, hdb, ⟨hbl, hby⟩, hblk⟩ := h
  constructor
  · show flattenLoop s.chainR.reverse [] = _
    rw [flattenLoop_eq]
    simp
  · show (((flattenLoop s.chainR.reverse []).length : Int)) = s.bytes
    rw [flattenLoop_eq, List.nil_append]
    rw [join_used_length s.dataSize s.chainR.reverse
      (fun b hb => hblk b (List.mem_reverse.1 hb))]
    rw [List.map_reverse, List.sum_reverse, hby]

/-- Witness for C3 at `smallArena`. -/
theorem C3_flatten_witness :
    WF smallArena ∧
    ((smallArena.flatten).1 =
      (smallArena.chainR.reverse.map
        (fun b => b.data.take b.endOffset.toNat)).flatten ∧
    (((smallArena.flatten).1.length : Int)) = (smallArena.getBytes).1) :=
  ⟨by decide, C3_flatten smallArena (by decide)⟩

/-- Claim C4: in every state reachable by construction and any sequence of
`newPtr` calls (queries leave the state unchanged, see C10) — with no
restriction at all on the requested sizes — `blocks` equals the number of
blocks in the chain and `bytes` equals the sum of the blocks'
`endOffset`s. -/
theorem C4_counters (blocks4k : Int) (l : List Int) :
    ((run (HeapStack.init blocks4k) l).getBlocks).1 =
      ((run (HeapStack.init blocks4k) l).chainR.length : Int) ∧
    ((run (HeapStack.init blocks4k) l).getBytes).1 =
      ((run (HeapStack.init blocks4k) l).chainR.map Block.endOffset).sum :=
  counters_run (HeapStack.init blocks4k) l (counters_init blocks4k)

/-- Counterexample to claim C5 as stated: two distinct `newPtr` calls of
size 0 on a fresh arena return the IDENTICAL range (pointer) — block 0,
offset 0, extent 0 — so "a returned range is never returned again by a later
call" fails (the C++ calls literally return the same `char*` twice). -/
theorem C5_zero_size_repeat :
    runRanges (HeapStack.init 1) [0, 0] =
      [{ blockIdx := 0, off := 0, size := 0 },
       { blockIdx := 0, off := 0, size := 0 }] := by
  decide

/-- Claim C5 amended: for POSITIVE request sizes within per-block capacity,
the ranges returned by distinct `newPtr` calls never overlap, are pairwise
distinct (no range is ever returned again), and each lies entirely within
the data region of the single existing block it names.  (Zero-size calls can
return the same empty range twice, see the counterexample.) -/
theorem C5_ranges (blocks4k : Int) (l : List Int) (hb : 1 ≤ blocks4k)
    (hl : ∀ sz ∈ l, 0 < sz ∧ sz ≤ (HeapStack.init blocks4k).dataSize) :
    List.Pairwise (fun r1 r2 => ¬ r1.overlaps r2 ∧ r1 ≠ r2)
      (runRanges (HeapStack.init blocks4k) l) ∧
    ∀ r ∈ runRanges (HeapStack.init blocks4k) l,
      r.inRegion (HeapStack.init blocks4k).dataSize ∧
      r.blockIdx < (run (HeapStack.init blocks4k) l).chainR.length := by
  have hl0 : ∀ sz ∈ l, 0 ≤ sz ∧ sz ≤ (HeapStack.init blocks4k).dataSize :=
    fun sz hsz => ⟨le_of_lt (hl sz hsz).1, (hl sz hsz).2⟩
  have hg := runRanges_geom (HeapStack.init blocks4k) l (wf_init blocks4k hb) hl0
  refine ⟨?_, hg.1⟩
  have hpos : ∀ r ∈ runRanges (HeapStack.init blocks4k) l, 0 < r.size := by
    intro r hr
    have : r.size ∈ l := by
      rw [← hg.2.1]
      exact List.mem_map_of_mem Range.size hr
    exact (hl r.size this).1
  refine List.Pairwise.imp_of_mem ?_ hg.2.2
  intro r1 r2 h1 h2 hord
  have hp1 := hpos r1 h1
  have hp2 := hpos r2 h2
  constructor
  · rintro ⟨hidx, hlt⟩
    rcases hord with hord | ⟨hord, hord2⟩
    · exact absurd hidx (Nat.ne_of_lt hord)
    · have h2a : r2.off < r1.off + r1.size := (lt_min_iff.1 (max_lt_iff.1 hlt).2).1
      have h2b : r1.off + r1.size ≤ r2.off := hord2
      linarith
  · intro heq
    rw [heq] at hord
    rcases hord with hord | ⟨-, hord2⟩
    · exact lt_irrefl _ hord
    · have h2b : r2.off + r2.size ≤ r2.off := hord2
      linarith

/-- Witness for C5 at a fresh 4096-byte-block arena and three positive
sizes crossing one block boundary. -/
theorem C5_ranges_witness :
    (1 : Int) ≤ 1 ∧
    (∀ sz ∈ [2000, 2000, 100], 0 < sz ∧
      sz ≤ (HeapStack.init 1).dataSize) ∧
    (List.Pairwise (fun r1 r2 => ¬ r1.overlaps r2 ∧ r1 ≠ r2)
      (runRanges (HeapStack.init 1) [2000, 2000, 100]) ∧
    ∀ r ∈ runRanges (HeapStack.init 1) [2000, 2000, 100],
      r.inRegion (HeapStack.init 1).dataSize ∧
      r.blockIdx < (run (HeapStack.init 1) [2000, 2000, 100]).chainR.length) :=
  ⟨by decide, by decide, C5_ranges 1 [2000, 2000, 100] (by decide) (by decide)⟩

/-- Claim C6: in every arena state reached by contract-abiding allocations,
`getAllocated()` is exactly `blocks * blockSize` (raw footprint with headers
and tail slack) and is at least `getBytes()`. -/
theorem C6_allocated (blocks4k : Int) (l : List Int) (hb : 1 ≤ blocks4k)
    (hl : ∀ sz ∈ l, 0 ≤ sz ∧ sz ≤ (HeapStack.init blocks4k).dataSize) :
    ((run (HeapStack.init blocks4k) l).getAllocated).1 =
      (run (HeapStack.init blocks4k) l).blocks *
        (run (HeapStack.init blocks4k) l).blockSize ∧
    ((run (HeapStack.init blocks4k) l).getBytes).1 ≤
      ((run (HeapStack.init blocks4k) l).getAllocated).1 := by
  obtain ⟨hd, hdb, ⟨hbl, hby⟩, hblk⟩ :=
    wf_run (HeapStack.init blocks4k) l (wf_init blocks4k hb) hl
  refine ⟨rfl, ?_⟩
  show (run (HeapStack.init blocks4k) l).bytes ≤
    (run (HeapStack.init blocks4k) l).blocks *
      (run (HeapStack.init blocks4k) l).blockSize
  have hsum : ((run (HeapStack.init blocks4k) l).chainR.map
      Block.endOffset).sum ≤
      (((run (HeapStack.init blocks4k) l).chainR.length : Int)) *
        (run (HeapStack.init blocks4k) l).dataSize := by
    have := sum_le_len_mul (run (HeapStack.init blocks4k) l).dataSize
      ((run (HeapStack.init blocks4k) l).chainR.map Block.endOffset) ?_
    · simpa using this
    · intro x hx
      obtain ⟨b, hbmem, hbx⟩ := List.mem_map.1 hx
      exact hbx ▸ (hblk b hbmem).2.1
  have hmul : (((run (HeapStack.init blocks4k) l).chainR.length : Int)) *
      (run (HeapStack.init blocks4k) l).dataSize ≤
      (((run (HeapStack.init blocks4k) l).chainR.length : Int)) *
        (run (HeapStack.init blocks4k) l).blockSize :=
    mul_le_mul_of_nonneg_left hdb (Int.natCast_nonneg _)
  rw [hby, hbl]
  exact le_trans hsum hmul

/-- Witness for C6 at a fresh arena and two in-contract sizes, the second
filling a whole block. -/
theorem C6_allocated_witness :
    (1 : Int) ≤ 1 ∧
    (∀ sz ∈ [100, 4080], 0 ≤ sz ∧ sz ≤ (HeapStack.init 1).dataSize) ∧
    (((run (HeapStack.init 1) [100, 4080]).getAllocated).1 =
      (run (HeapStack.init 1) [100, 4080]).blocks *
        (run (HeapStack.init 1) [100, 4080]).blockSize ∧
    ((run (HeapStack.init 1) [100, 4080]).getBytes).1 ≤
      ((run (HeapStack.init 1) [100, 4080]).getAllocated).1) :=
  ⟨by decide, by decide, C6_allocated 1 [100, 4080] (by decide) (by decide)⟩

/-- Claim C7 (code bug): the claim requires construction to fail with an
invalid-configuration error whenever `blocks4k * 4096 - headerSize ≤ 0`.
The source constructor only initialises fields and has no failure path: at
the concrete input `blocks4k = 0` it silently produces a fully initialised
arena with `blockSize = 0` and `dataSize = -16`, which the claim says must
be rejected. -/
theorem C7_no_construction_check :
    HeapStack.init 0 =
      { blockSize := 0, dataSize := -16, blocks := 0, bytes := 0,
        chainR := [] } ∧
    (HeapStack.init 0).dataSize < 0 := by
  refine ⟨?_, by decide⟩
  show HeapStack.mk (0 * 4096) (0 * 4096 - headerSize) 0 0 [] = _
  rw [headerSize]
  norm_num

/-- Counterexample to claim C8 as stated: on a freshly constructed arena —
before any allocation — `currentData()` executes `return tail->data;` with
`tail == NULL`.  There is no guard and no error path: the call is a
null-pointer access (`nullTailUB`, undefined behaviour), not a signalled
error. -/
theorem C8_unguarded_before_alloc :
    (HeapStack.init 1024).currentData = CurrentDataResult.nullTailUB := rfl

/-- Claim C8 amended: after at least one `newPtr` call, `currentData()`
returns a pointer to offset 0 of the tail (last) block's data region; called
before any allocation it dereferences the null `tail` pointer (undefined
behaviour) — it is NOT guarded and signals nothing. -/
theorem C8_currentData_tail (blocks4k : Int) (l : List Int) (h : l ≠ []) :
    (run (HeapStack.init blocks4k) l).currentData =
      CurrentDataResult.ptr
        ((run (HeapStack.init blocks4k) l).chainR.length - 1) 0 := by
  have hne : (run (HeapStack.init blocks4k) l).chainR ≠ [] := by
    rcases l with _ | ⟨sz, rest⟩
    · exact absurd rfl h
    · show (run ((HeapStack.init blocks4k).newPtr sz).1 rest).chainR ≠ []
      exact run_ne_nil _ rest (newPtr_ne_nil _ sz)
  rcases hc : (run (HeapStack.init blocks4k) l).chainR with _ | ⟨b, rest2⟩
  · exact absurd hc hne
  · simp [HeapStack.currentData, hc]

/-- Witness for the amended C8: one 5-byte allocation, then `currentData`. -/
theorem C8_currentData_tail_witness :
    ([5] : List Int) ≠ [] ∧
    (run (HeapStack.init 1) [5]).currentData =
      CurrentDataResult.ptr ((run (HeapStack.init 1) [5]).chainR.length - 1) 0 :=
  ⟨by simp, C8_currentData_tail 1 [5] (by simp)⟩

/-- Claim C9: `n ≥ 1` zero-size `newPtr` calls on a fresh arena with
positive usable capacity create exactly one block, lazily, on the first
call, and leave `getBytes() = 0` and `getBlocks() = 1`; every call
completes. -/
theorem C9_zero_allocs (blocks4k : Int) (n : Nat) (hb : 1 ≤ blocks4k)
    (hn : 1 ≤ n) :
    ((run (HeapStack.init blocks4k) (List.replicate n 0)).getBytes).1 = 0 ∧
    ((run (HeapStack.init blocks4k) (List.replicate n 0)).getBlocks).1 = 1 := by
  have hd : 0 < (HeapStack.init blocks4k).dataSize := (wf_init blocks4k hb).1
  rcases n with _ | m
  · exact absurd hn (by simp)
  have hstep := newPtr_nil (HeapStack.init blocks4k) 0 rfl
  have hfix := run_zero_fix ((HeapStack.init blocks4k).newPtr 0).1
    (List.replicate (HeapStack.init blocks4k).dataSize.toNat 0) [] m
    (by rw [hstep]) (by rw [(newPtr_config (HeapStack.init blocks4k) 0).1]; exact hd)
  show ((run ((HeapStack.init blocks4k).newPtr 0).1
      (List.replicate m 0)).getBytes).1 = 0 ∧
    ((run ((HeapStack.init blocks4k).newPtr 0).1
      (List.replicate m 0)).getBlocks).1 = 1
  rw [hfix, hstep]
  exact ⟨rfl, rfl⟩

/-- Witness for C9: three zero-size allocations on a fresh one-unit arena. -/
theorem C9_zero_allocs_witness :
    (1 : Int) ≤ 1 ∧ 1 ≤ 3 ∧
    (((run (HeapStack.init 1) (List.replicate 3 0)).getBytes).1 = 0 ∧
      ((run (HeapStack.init 1) (List.replicate 3 0)).getBlocks).1 = 1) :=
  ⟨by decide, by decide, C9_zero_allocs 1 3 (by decide) (by decide)⟩

/-- Claim C10: the query operations `getBytes`, `getAllocated`, `getBlocks`
and both `flatten` overloads return the arena state unchanged: every field —
counters, configuration, and the whole block chain with each block's
`endOffset`, data bytes and position (the `nextBlock` links) — is exactly
the state before the call. -/
theorem C10_queries_pure (s : HeapStack) :
    (s.getBytes).2 = s ∧ (s.getAllocated).2 = s ∧ (s.getBlocks).2 = s ∧
    (s.flatten).2 = s ∧ (s.flattenLen).2 = s :=
  ⟨rfl, rfl, rfl, rfl, rfl⟩

end HeapStackV
